import Mathlib

/-!
Verification of the polygon-slicing search core of the "Shadows of the Knight"
episode-2 bot (`src/shadows-of-the-knight/ep2/solution.cpp`).

The C++ code computes over `double`; this development idealizes `double` as
exact real arithmetic (`ℝ`), which matches the specification's own reading
("within floating tolerance").  Every definition below mirrors one function of
the source file; C++ exceptions (`throw invalid_argument`) are modelled with
`Except GeomErr`, and reads through possibly-invalid iterators are modelled
with `Option`-valued reads (see `oobNe`).
-/

namespace Knight

/-- 2D point, the C++ `Point` class (coordinates are `double`, idealized as `ℝ`). -/
structure Point where
  x : ℝ
  y : ℝ

noncomputable instance : DecidableEq Point := Classical.decEq _

noncomputable instance : Add Point := ⟨fun a b => ⟨a.x + b.x, a.y + b.y⟩⟩

noncomputable instance : Neg Point := ⟨fun a => ⟨-a.x, -a.y⟩⟩

/-- The C++ `operator-` computes `-other + *this`, i.e. componentwise subtraction. -/
noncomputable instance : Sub Point := ⟨fun a b => ⟨a.x - b.x, a.y - b.y⟩⟩

noncomputable instance : HMul Point ℝ Point := ⟨fun a n => ⟨a.x * n, a.y * n⟩⟩

noncomputable instance : HDiv Point ℝ Point := ⟨fun a n => ⟨a.x / n, a.y / n⟩⟩

/-- `Point::apply`: componentwise application of a unary function. -/
noncomputable def Point.apply (p : Point) (f : ℝ → ℝ) : Point := ⟨f p.x, f p.y⟩

/-- `Point::slope`: `y/x`, or `0` when `x = 0`. -/
noncomputable def Point.slope (p : Point) : ℝ := if p.x ≠ 0 then p.y / p.x else 0

/-- `Point::manhattanMagnitude`: `|x| + |y|`. -/
noncomputable def Point.manhattanMagnitude (p : Point) : ℝ := |p.x| + |p.y|

/-- `Point::crossZ`: the z-component of the cross product. -/
noncomputable def Point.crossZ (p other : Point) : ℝ := p.x * other.y - p.y * other.x

/-- `Point::magnitude`: Euclidean length. -/
noncomputable def Point.magnitude (p : Point) : ℝ := Real.sqrt (p.x * p.x + p.y * p.y)

/-- `Point::unitVector`: `*this / magnitude()`.  The C++ performs the division
unconditionally: for the zero vector this is an IEEE division by zero that
returns a (non-finite) value, never an exception; in the real-valued model the
convention `x / 0 = 0` applies. -/
noncomputable def Point.unitVector (p : Point) : Point := p / p.magnitude

/-- `Point::rotateByComplex`: complex-multiplication rotation by the argument's
unit vector. -/
noncomputable def Point.rotateByComplex (p vec : Point) : Point :=
  let v := vec.unitVector
  ⟨p.x * v.x - p.y * v.y, p.x * v.y + p.y * v.x⟩

/-- `Point::distanceTo`: `(other - *this).magnitude()`. -/
noncomputable def Point.distanceTo (p other : Point) : ℝ := (other - p).magnitude

/-- The free function `within(n, min, max)`: swaps the bounds when given in
reverse order, then tests inclusive membership. -/
noncomputable def within (n mn mx : ℝ) : Prop :=
  if mn > mx then mx ≤ n ∧ n ≤ mn else mn ≤ n ∧ n ≤ mx

noncomputable instance withinDec (n mn mx : ℝ) : Decidable (within n mn mx) := by
  unfold within; split <;> infer_instance

/-- The free function `clamp(n, min, max) = max(min, min(max, n))`. -/
noncomputable def clamp (n mn mx : ℝ) : ℝ := max mn (min mx n)

/-- The `double → double` floor function used through `Point::apply`. -/
noncomputable def floorF (a : ℝ) : ℝ := (⌊a⌋ : ℤ)

/-- Error kinds of the C++ code.  Both are thrown as `std::invalid_argument`
with a diagnostic message; the embedding keeps only the kind: `invalidLine` is
the `Line` constructor's "A == B" throw, `tooManyCuts` is `Polygon::slice`'s
"intersections > 2" throw. -/
inductive GeomErr where
  | invalidLine
  | tooManyCuts
deriving DecidableEq

/-- The C++ `Line` class with its constructor-cached fields. -/
structure Line where
  A : Point
  B : Point
  vec : Point
  slope : ℝ
  lift : ℝ

/-- The C++ `Line` constructor: all fields are initialized from `A` and `B`,
then the constructor throws when the travel vector has Manhattan magnitude 0. -/
noncomputable def mkLine (A B : Point) : Except GeomErr Line :=
  let vec := B - A
  if vec.manhattanMagnitude = 0 then .error .invalidLine
  else .ok ⟨A, B, vec, vec.slope, -vec.slope * A.x + A.y⟩

/-- `Line::intersection`: the crossing point of the two infinite-line
extensions by the cross-product ratio method; `none` when the denominator
vanishes (parallel or degenerate). -/
noncomputable def Line.intersection (self other : Line) : Option Point :=
  let denom := self.vec.crossZ other.vec
  if denom = 0 then none
  else
    let t := other.vec.crossZ (self.A - other.A) / denom
    some (self.A + self.vec * t)

/-- `Line::pointInSegment`, exactly as the source computes it: note the
co-linearity test `vec.crossZ(P - A) < 0.002` is one-sided (no absolute
value). -/
noncomputable def Line.pointInSegment (l : Line) (P : Point) : Prop :=
  (l.A = P ∨ l.vec.crossZ (P - l.A) < 2 / 1000) ∧
    (within P.x l.A.x l.B.x ∧ within P.y l.A.y l.B.y)

noncomputable instance (l : Line) (P : Point) : Decidable (l.pointInSegment P) := by
  unfold Line.pointInSegment; infer_instance

/-- The point-in-segment predicate as the specification words it, kept for
comparison with the implementation: co-linearity with the cross product near
zero in absolute value, plus the bounding-interval test. -/
noncomputable def Line.specPointInSegment (l : Line) (P : Point) : Prop :=
  |l.vec.crossZ (P - l.A)| < 2 / 1000 ∧
    (within P.x l.A.x l.B.x ∧ within P.y l.A.y l.B.y)

/-- The C++ `Polygon` class: an ordered vertex list. -/
structure Polygon where
  vertices : List Point

/-- Exact geometric membership of `P` in the closed segment from `A` to `B`:
on the infinite line and inside the bounding box.  This is a specification-side
predicate (used to state boundary facts about cutting lines), not part of the
implementation. -/
noncomputable def onSeg (A B P : Point) : Prop :=
  (B - A).crossZ (P - A) = 0 ∧ within P.x A.x B.x ∧ within P.y A.y B.y

/-- Specification-side predicate: `P` lies on the polygon's boundary. -/
noncomputable def Polygon.onBoundary (poly : Polygon) (P : Point) : Prop :=
  ∃ i < poly.vertices.length,
    onSeg (poly.vertices.getD i ⟨0, 0⟩)
      (poly.vertices.getD ((i + 1) % poly.vertices.length) ⟨0, 0⟩) P

/-- The loop body of `Polygon::intersectsFromLine`, processing the edge indices
in order.  For each index `i` it builds the side `I → J` (the constructor may
throw), intersects it with the cast line, skips a missing intersection, skips
an intersection equal to `J`, and accepts one that passes `pointInSegment`. -/
noncomputable def interLoop (verts : List Point) (lineCast : Line) :
    List ℕ → Except GeomErr (List (Point × ℕ))
  | [] => .ok []
  | i :: rest =>
    let j := (i + 1) % verts.length
    let I := verts.getD i ⟨0, 0⟩
    let J := verts.getD j ⟨0, 0⟩
    match mkLine I J with
    | .error e => .error e
    | .ok side =>
      match side.intersection lineCast with
      | none => interLoop verts lineCast rest
      | some P =>
        if P = J then interLoop verts lineCast rest
        else if side.pointInSegment P then
          match interLoop verts lineCast rest with
          | .error e => .error e
          | .ok l => .ok ((P, i) :: l)
        else interLoop verts lineCast rest

/-- `Polygon::intersectsFromLine`: constructs the cast line (which may throw),
then scans every edge `i = 0 .. n-1` with `j = (i+1) % n`. -/
noncomputable def Polygon.intersectsFromLine (poly : Polygon) (A B : Point) :
    Except GeomErr (List (Point × ℕ)) :=
  match mkLine A B with
  | .error e => .error e
  | .ok lineCast => interLoop poly.vertices lineCast (List.range poly.vertices.length)

/-- Models a C++ comparison `*it != p` where `it` may be past the end of the
vector.  An in-range read compares the stored point; an out-of-range read is
undefined behaviour in the source (it reads whatever memory follows the
buffer) and the modelled outcome — matching the observed behaviour — is that
the garbage value compares unequal to `p`. -/
noncomputable def oobNe (r : Option Point) (p : Point) : Prop :=
  match r with
  | some q => q ≠ p
  | none => True

noncomputable instance (r : Option Point) (p : Point) : Decidable (oobNe r p) := by
  unfold oobNe; split <;> infer_instance

/-- `Polygon::slice`: fewer than 2 intersections returns the polygon itself;
more than 2 throws; otherwise the vertex ring is split at the two edge indices
into `shapeA` (vertices `lo+1 .. hi` plus the cut points) and `shapeB`
(vertices `0 .. lo`, the cut points, and vertices `hi+1 .. n-1`).

The conditional inserts mirror the source line by line, including its two
out-of-range reads: `*(shapeB.end())` is always one past the end, and
`*(itB+1)` is one past the end of the vertex vector exactly when `hi = n-1`
(see `oobNe`).  Also note the source tests `*(shapeA.begin()) != pA` but then
inserts `pA` at the end of `shapeA`. -/
noncomputable def Polygon.slice (poly : Polygon) (A B : Point) :
    Except GeomErr (List Polygon) :=
  match poly.intersectsFromLine A B with
  | .error e => .error e
  | .ok [] => .ok [poly]
  | .ok [_] => .ok [poly]
  | .ok [(pA, idxA), (pB, idxB)] =>
    let verts := poly.vertices
    let lo := min idxA idxB
    let hi := max idxA idxB
    let shapeA0 := (verts.drop (lo + 1)).take (hi - lo)
    let shapeA1 := if oobNe shapeA0.getLast? pB then shapeA0 ++ [pB] else shapeA0
    let shapeA2 := if oobNe shapeA1.head? pA then shapeA1 ++ [pA] else shapeA1
    let shapeB0 := verts.take (lo + 1)
    let shapeB1 := if oobNe (shapeB0.get? shapeB0.length) pA then shapeB0 ++ [pA] else shapeB0
    let shapeB2 := if oobNe (verts.get? (hi + 1)) pB then shapeB1 ++ [pB] else shapeB1
    let shapeB3 := shapeB2 ++ verts.drop (hi + 1)
    .ok [⟨shapeA2⟩, ⟨shapeB3⟩]
  | .ok _ => .error .tooManyCuts

/-- Instrumentation of the reads `Polygon::slice` performs while assembling the
two shapes: holds when the successful two-intersection path dereferences an
iterator that is out of range (`*(shapeA.end()-1)` or `*(shapeA.begin())` on an
empty vector, `*(shapeB.end())`, or `*(itB+1)` past the vertex vector). -/
noncomputable def Polygon.sliceOOB (poly : Polygon) (A B : Point) : Prop :=
  match poly.intersectsFromLine A B with
  | .ok [(_, idxA), (_, idxB)] =>
    let verts := poly.vertices
    let lo := min idxA idxB
    let hi := max idxA idxB
    let shapeA0 := (verts.drop (lo + 1)).take (hi - lo)
    let shapeB0 := verts.take (lo + 1)
    shapeA0.getLast? = none ∨ shapeA0.head? = none ∨
      shapeB0.get? shapeB0.length = none ∨ verts.get? (hi + 1) = none
  | _ => False

/-- `Polygon::averageVertex`: the componentwise mean of the vertices. -/
noncomputable def Polygon.averageVertex (poly : Polygon) : Point :=
  (poly.vertices.foldl (· + ·) ⟨0, 0⟩) / (poly.vertices.length : ℝ)

/-- The driver's per-turn mutable data: the candidate polygon and the current
probe position (the loop-local `search` and `pos` of `main`). -/
structure SearchState where
  search : Polygon
  pos : Point

/-- The probe-selection step of `main`: reflect the previous position through
the polygon's average vertex, floor both coordinates, and clamp them into
`[0, width-1] × [0, height-1]`. -/
noncomputable def nextProbe (w h : ℤ) (s : SearchState) : Point :=
  let center := s.search.averageVertex
  let p := center - (s.pos - center)
  let pf := p.apply floorF
  ⟨clamp pf.x 0 ((w - 1 : ℤ) : ℝ), clamp pf.y 0 ((h - 1 : ℤ) : ℝ)⟩

/-- Result of one iteration of the game loop: the emitted probe, the state
carried to the next turn, and whether `Polygon::slice` was invoked. -/
structure TurnOut where
  emit : Point
  next : SearchState
  usedSlice : Bool

/-- One iteration of `main`'s game loop, from the reflection step to the
narrowing decision.  The clue `"SAME"` short-circuits (`continue`) before any
line is built.  Otherwise the midline `mid → midB` is derived, the two debug
`Line` constructions of the source run (each may throw), the polygon is
sliced, and if two shapes result the one whose average vertex is closer to the
new probe is kept for `"WARMER"`, the other one for every other clue. -/
noncomputable def turnStep (w h : ℤ) (s : SearchState) (clue : String) :
    Except GeomErr TurnOut :=
  let lastPos := s.pos
  let pos := nextProbe w h s
  if clue = "SAME" then .ok ⟨pos, ⟨s.search, pos⟩, false⟩
  else
    let mid := ((pos - lastPos) / (2 : ℝ) + lastPos).apply floorF
    let midB := (pos - mid).rotateByComplex ⟨0, 1⟩ + mid
    match mkLine lastPos pos with
    | .error e => .error e
    | .ok _ =>
      match mkLine mid midB with
      | .error e => .error e
      | .ok _ =>
        match s.search.slice mid midB with
        | .error e => .error e
        | .ok shapes =>
          match shapes with
          | [sh0, sh1] =>
            let doSwap := sh0.averageVertex.distanceTo pos > sh1.averageVertex.distanceTo pos
            let warm := if doSwap then sh1 else sh0
            let cold := if doSwap then sh0 else sh1
            if clue = "WARMER" then .ok ⟨pos, ⟨warm, pos⟩, true⟩
            else .ok ⟨pos, ⟨cold, pos⟩, true⟩
          | _ => .ok ⟨pos, ⟨s.search, pos⟩, true⟩

/-! Concrete inputs used to exercise the definitions. -/

/-- The 4×4 board rectangle, as `main` builds it. -/
def sq4 : Polygon := ⟨[⟨0, 0⟩, ⟨4, 0⟩, ⟨4, 4⟩, ⟨0, 4⟩]⟩

/-- The 2×2 board rectangle. -/
def sq2 : Polygon := ⟨[⟨0, 0⟩, ⟨2, 0⟩, ⟨2, 2⟩, ⟨0, 2⟩]⟩

/-- A non-convex pentagon (a notch at the bottom): the horizontal line `y = 1`
meets its boundary four times. -/
def pent5 : Polygon := ⟨[⟨0, 0⟩, ⟨2, 2⟩, ⟨4, 0⟩, ⟨4, 4⟩, ⟨0, 4⟩]⟩

/-- Vertex access as the loop performs it (`*(vertices.begin() + i)`). -/
noncomputable def vtx (verts : List Point) (i : ℕ) : Point := verts.getD i ⟨0, 0⟩

/-- The travel vector of boundary edge `i` (from vertex `i` to vertex
`(i+1) % n`). -/
noncomputable def edgeVec (verts : List Point) (i : ℕ) : Point :=
  vtx verts ((i + 1) % verts.length) - vtx verts i

/-- The signed cross product of edge `i`'s travel vector with the vector from
vertex `i` to `Q`: positive when `Q` is strictly to the left of edge `i`'s
directed line. -/
noncomputable def ecross (verts : List Point) (i : ℕ) (Q : Point) : ℝ :=
  (edgeVec verts i).crossZ (Q - vtx verts i)

/-- The point of boundary edge `i` at parameter `t` (its endpoints are `t = 0`
and `t = 1`). -/
noncomputable def segPt (verts : List Point) (i : ℕ) (t : ℝ) : Point :=
  ⟨(vtx verts i).x + (edgeVec verts i).x * t, (vtx verts i).y + (edgeVec verts i).y * t⟩

/-- Strictly convex position, counter-clockwise: every vertex that is not an
endpoint of edge `i` lies strictly to the left of edge `i`'s directed line.
This formalizes the claim's "convex polygon" hypothesis (for a clockwise
vertex order the mirrored statement holds). -/
def StrictlyConvex (verts : List Point) : Prop :=
  ∀ i < verts.length, ∀ k < verts.length,
    k ≠ i → k ≠ (i + 1) % verts.length → 0 < ecross verts i (vtx verts k)

/-- What the scanning loop guarantees for each accepted entry `(P, i)`: the
side `i` was a valid line, the intersection with the cast line exists and is
`P`, `P` is not the side's second endpoint, and `P` passed `pointInSegment`. -/
noncomputable def entryOK (verts : List Point) (lineCast : Line) (P : Point) (i : ℕ) : Prop :=
  ∃ side : Line,
    mkLine (vtx verts i) (vtx verts ((i + 1) % verts.length)) = .ok side ∧
      side.intersection lineCast = some P ∧
      P ≠ vtx verts ((i + 1) % verts.length) ∧
      side.pointInSegment P

theorem Point.ext_iff' (a b : Point) : a = b ↔ a.x = b.x ∧ a.y = b.y := by
  cases a; cases b; simp

@[simp] theorem Point.add_def (a b : Point) : a + b = ⟨a.x + b.x, a.y + b.y⟩ := rfl

@[simp] theorem Point.neg_def (a : Point) : -a = ⟨-a.x, -a.y⟩ := rfl

@[simp] theorem Point.sub_def (a b : Point) : a - b = ⟨a.x - b.x, a.y - b.y⟩ := rfl

@[simp] theorem Point.mul_def (a : Point) (n : ℝ) : a * n = ⟨a.x * n, a.y * n⟩ := rfl

@[simp] theorem Point.div_def (a : Point) (n : ℝ) : a / n = ⟨a.x / n, a.y / n⟩ := rfl

/-! Claim C8. -/

/-- C8: constructing a `Line` from two identical points fails with the
constructor's error (the C++ `invalid_argument` throw); no zero-length segment
is ever returned silently. -/
theorem mkLine_identical_points_error (A B : Point) (h : A = B) :
    mkLine A B = .error .invalidLine := by
  subst h
  simp [mkLine, Point.manhattanMagnitude]

theorem mkLine_identical_points_error_witness :
    mkLine ⟨2, 2⟩ ⟨2, 2⟩ = .error .invalidLine :=
  mkLine_identical_points_error ⟨2, 2⟩ ⟨2, 2⟩ rfl

/-! Claim C9. -/

/-- C9 counterexample: at the zero vector the exact unit-vector operation does
not fail — the C++ division `*this / magnitude()` is unconditional and returns
a value (non-finite components under IEEE arithmetic; `0 / 0 = 0` under the
real-valued model), there is no `DivideByZero` error channel at all in
`Point::unitVector`. -/
theorem unitVector_zero_returns_value : Point.unitVector ⟨0, 0⟩ = ⟨0, 0⟩ := by
  simp [Point.unitVector]

/-- C9 (amended): `unitVector` never raises; for every non-zero vector it
returns the vector divided by its magnitude, a vector of magnitude 1. -/
theorem unitVector_nonzero (p : Point) (h : p ≠ ⟨0, 0⟩) :
    p.unitVector = ⟨p.x / p.magnitude, p.y / p.magnitude⟩ ∧
      p.unitVector.magnitude = 1 := by
  have hs : 0 < p.x * p.x + p.y * p.y := by
    rcases not_and_or.mp (fun hc => h ((Point.ext_iff' p ⟨0, 0⟩).mpr hc)) with hx | hy
    · nlinarith [mul_self_pos.mpr hx, mul_self_nonneg p.y]
    · nlinarith [mul_self_pos.mpr hy, mul_self_nonneg p.x]
  have hmm : p.magnitude * p.magnitude = p.x * p.x + p.y * p.y :=
    Real.mul_self_sqrt hs.le
  have hmpos : 0 < p.magnitude := Real.sqrt_pos.mpr hs
  refine ⟨rfl, ?_⟩
  show Real.sqrt (p.x / p.magnitude * (p.x / p.magnitude) +
    p.y / p.magnitude * (p.y / p.magnitude)) = 1
  have : p.x / p.magnitude * (p.x / p.magnitude) +
      p.y / p.magnitude * (p.y / p.magnitude) = 1 := by
    field_simp
    linarith [hmm]
  rw [this, Real.sqrt_one]

theorem unitVector_nonzero_witness :
    ((⟨3, 4⟩ : Point) ≠ ⟨0, 0⟩) ∧
      ((⟨3, 4⟩ : Point).unitVector =
          ⟨3 / (⟨3, 4⟩ : Point).magnitude, 4 / (⟨3, 4⟩ : Point).magnitude⟩ ∧
        (⟨3, 4⟩ : Point).unitVector.magnitude = 1) :=
  ⟨by simp [Point.ext_iff'], unitVector_nonzero ⟨3, 4⟩ (by simp [Point.ext_iff'])⟩

/-! Claim C6. -/

/-- C6: the implementation's co-linearity test is one-sided (`cross < 0.002`,
no absolute value), so `pointInSegment` accepts points far off the segment's
line whenever the cross product is negative: for the segment `(0,0) → (10,10)`
the point `(5,0)` has cross product `-50`, is inside the bounding box, and is
accepted — while the specification's predicate (absolute value within the
tolerance) rejects it. -/
theorem pointInSegment_one_sided_tolerance :
    ∃ l : Line, mkLine ⟨0, 0⟩ ⟨10, 10⟩ = .ok l ∧
      l.pointInSegment ⟨5, 0⟩ ∧ ¬ l.specPointInSegment ⟨5, 0⟩ := by
  refine ⟨⟨⟨0, 0⟩, ⟨10, 10⟩, ⟨10, 10⟩, 1, 0⟩, ?_, ?_, ?_⟩ <;>
    norm_num [mkLine, Line.pointInSegment, Line.specPointInSegment, within,
      Point.crossZ, Point.manhattanMagnitude, Point.slope, Point.ext_iff']

/-! Claim C7. -/

/-- C7: whatever the current search state, the emitted probe has integer
coordinates inside the board rectangle: the reflected point is floored and
then clamped into `[0, w-1] × [0, h-1]`. -/
theorem nextProbe_in_bounds (w h : ℤ) (s : SearchState) (hw : 1 ≤ w) (hh : 1 ≤ h) :
    ∃ kx ky : ℤ, nextProbe w h s = ⟨(kx : ℝ), (ky : ℝ)⟩ ∧
      0 ≤ kx ∧ kx < w ∧ 0 ≤ ky ∧ ky < h := by
  refine ⟨max 0 (min (w - 1)
      ⌊(s.search.averageVertex - (s.pos - s.search.averageVertex)).x⌋),
    max 0 (min (h - 1)
      ⌊(s.search.averageVertex - (s.pos - s.search.averageVertex)).y⌋),
    ?_, le_max_left _ _,
    max_lt (by omega) (lt_of_le_of_lt (min_le_left _ _) (by omega)),
    le_max_left _ _,
    max_lt (by omega) (lt_of_le_of_lt (min_le_left _ _) (by omega))⟩
  unfold nextProbe clamp floorF Point.apply
  rw [Point.ext_iff']
  constructor <;> · push_cast; rfl

theorem nextProbe_in_bounds_witness :
    ((1 : ℤ) ≤ 2) ∧
      ∃ kx ky : ℤ, nextProbe 2 2 ⟨sq2, ⟨0, 0⟩⟩ = ⟨(kx : ℝ), (ky : ℝ)⟩ ∧
        0 ≤ kx ∧ kx < 2 ∧ 0 ≤ ky ∧ ky < 2 :=
  ⟨by norm_num, nextProbe_in_bounds 2 2 ⟨sq2, ⟨0, 0⟩⟩ (by norm_num) (by norm_num)⟩

/-! Claim C3. -/

/-- C3: on a turn whose clue is `"SAME"` the driver leaves the candidate
polygon unchanged and does not invoke `slice` (the loop `continue`s right
after recording the new probe position). -/
theorem turnStep_same_no_slice (w h : ℤ) (s : SearchState) :
    turnStep w h s "SAME" = .ok ⟨nextProbe w h s, ⟨s.search, nextProbe w h s⟩, false⟩ := by
  simp [turnStep]

/-! Claim C5. -/

/-- C5: when the cut finds fewer than 2 boundary intersections, `slice`
returns the polygon unchanged (and raises nothing); when it finds more than 2,
`slice` fails with the degenerate-geometry error instead of clamping. -/
theorem slice_intersection_count_guard (poly : Polygon) (A B : Point)
    (l : List (Point × ℕ)) (hInt : poly.intersectsFromLine A B = .ok l) :
    (l.length < 2 → poly.slice A B = .ok [poly]) ∧
      (2 < l.length → poly.slice A B = .error .tooManyCuts) := by
  rcases l with _ | ⟨⟨pA, a⟩, _ | ⟨⟨pB, b⟩, _ | ⟨c, rest⟩⟩⟩
  · exact ⟨fun _ => by simp [Polygon.slice, hInt], fun hc => by norm_num at hc⟩
  · exact ⟨fun _ => by simp [Polygon.slice, hInt], fun hc => by norm_num at hc⟩
  · exact ⟨fun hc => by norm_num at hc, fun hc => by norm_num at hc⟩
  · refine ⟨fun hc => by simp at hc; omega, fun _ => ?_⟩
    simp [Polygon.slice, hInt]

theorem slice_intersection_count_guard_witness :
    sq4.slice ⟨10, 0⟩ ⟨10, 1⟩ = .ok [sq4] ∧
      pent5.slice ⟨0, 1⟩ ⟨1, 1⟩ = .error .tooManyCuts := by
  have h1 : sq4.intersectsFromLine ⟨10, 0⟩ ⟨10, 1⟩ = .ok [] := by
    set_option maxRecDepth 4000 in
    norm_num [Polygon.intersectsFromLine, interLoop, mkLine, Line.intersection,
      Line.pointInSegment, within, Point.crossZ, Point.manhattanMagnitude, Point.slope,
      sq4, Point.ext_iff', List.range_succ]
  have h2 : pent5.intersectsFromLine ⟨0, 1⟩ ⟨1, 1⟩ =
      .ok [(⟨1, 1⟩, 0), (⟨3, 1⟩, 1), (⟨4, 1⟩, 2), (⟨0, 1⟩, 4)] := by
    set_option maxRecDepth 4000 in
    norm_num [Polygon.intersectsFromLine, interLoop, mkLine, Line.intersection,
      Line.pointInSegment, within, Point.crossZ, Point.manhattanMagnitude, Point.slope,
      pent5, Point.ext_iff', List.range_succ]
  exact ⟨(slice_intersection_count_guard sq4 _ _ [] h1).1 (by norm_num),
    (slice_intersection_count_guard pent5 _ _ _ h2).2 (by norm_num)⟩

/-! Claim C1. -/

/-- Helper: a successful `interLoop` run yields at most one entry per
processed edge index, in loop order: the entries' index components form a
sublist of the processed index list. -/
theorem interLoop_ok_sublist (verts : List Point) (lineCast : Line) (idxs : List ℕ)
    (out : List (Point × ℕ)) (h : interLoop verts lineCast idxs = .ok out) :
    (out.map Prod.snd).Sublist idxs := by
  induction idxs generalizing out with
  | nil =>
    rw [interLoop] at h
    cases h
    simp
  | cons i rest ih =>
    rw [interLoop] at h
    split at h
    · exact absurd h (by simp)
    · split at h
      · exact (ih out h).cons i
      · split at h
        · exact (ih out h).cons i
        · split at h
          · split at h
            · exact absurd h (by simp)
            · rename_i l hrec
              simp only [Except.ok.injEq] at h
              subst h
              simpa using (ih l hrec).cons₂ i
          · exact (ih out h).cons i

/-- Helper: the floor step at an argument lying in `[k, k+1)`. -/
theorem floorF_eq_intCast (r : ℝ) (k : ℤ) (h1 : (k : ℝ) ≤ r) (h2 : r < k + 1) :
    floorF r = (k : ℝ) := by
  unfold floorF
  norm_cast
  exact Int.floor_eq_iff.mpr ⟨h1, h2⟩

/-- Helper: rotating by the vector `(0,1)` is the 90° rotation (its unit
vector is `(0,1)` itself since `√1 = 1`). -/
theorem rotateByComplex_01 (p : Point) : p.rotateByComplex ⟨0, 1⟩ = ⟨-p.y, p.x⟩ := by
  unfold Point.rotateByComplex Point.unitVector Point.magnitude
  norm_num [Real.sqrt_one, Point.ext_iff']

/-- C4 (amended): the driver never reports an unknown feedback token.  The
loop only tests the clue against `"SAME"` and `"WARMER"`, so every other
token — legal `"COLDER"` or garbage alike — takes the `else` branch and
narrows the search polygon to the cold half: an unknown token is silently
treated exactly like `"COLDER"`. -/
theorem turnStep_unknown_token_as_colder (w h : ℤ) (s : SearchState) (clue : String)
    (h1 : clue ≠ "SAME") (h2 : clue ≠ "WARMER") :
    turnStep w h s clue = turnStep w h s "COLDER" := by
  unfold turnStep
  rw [if_neg h1, if_neg (by decide : ¬("COLDER" = "SAME"))]
  simp only [if_neg h2, if_neg (by decide : ¬("COLDER" = "WARMER"))]

/-- C4 counterexample: at a reachable state (first turn on a 2×2 board, probe
at the origin) the unknown feedback token `"BANANA"` is not surfaced as an
error of any kind: the turn completes successfully (here the derived midline
only grazes the search square, so the polygon happens to survive unchanged,
with `slice` invoked).  The claim's required `ProtocolViolation` behaviour
does not exist in the driver. -/
theorem turnStep_unknown_token_no_error :
    turnStep 2 2 ⟨sq2, ⟨0, 0⟩⟩ "BANANA" = .ok ⟨⟨1, 1⟩, ⟨sq2, ⟨1, 1⟩⟩, true⟩ := by
  have hf0 : floorF (1 / 2) = 0 := by
    rw [show (0 : ℝ) = ((0 : ℤ) : ℝ) by norm_num]
    exact floorF_eq_intCast _ 0 (by norm_num) (by norm_num)
  have hf0' : floorF 2⁻¹ = 0 := by
    rw [show (0 : ℝ) = ((0 : ℤ) : ℝ) by norm_num]
    exact floorF_eq_intCast _ 0 (by norm_num) (by norm_num)
  have hf2 : floorF 2 = 2 := by
    rw [show ((2 : ℝ)) = ((2 : ℤ) : ℝ) by norm_num]
    rw [floorF_eq_intCast _ 2 (by norm_num) (by norm_num)]
  have havg : sq2.averageVertex = ⟨1, 1⟩ := by
    unfold Polygon.averageVertex
    norm_num [sq2, Point.ext_iff']
  have hprobe : nextProbe 2 2 ⟨sq2, ⟨0, 0⟩⟩ = ⟨1, 1⟩ := by
    unfold nextProbe Point.apply
    norm_num [havg, Point.ext_iff', clamp, min_def, max_def, hf2]
  have hI : sq2.intersectsFromLine ⟨0, 0⟩ ⟨-1, 1⟩ = .ok [(⟨0, 0⟩, 0)] := by
    set_option maxRecDepth 4000 in
    norm_num [Polygon.intersectsFromLine, interLoop, mkLine, Line.intersection,
      Line.pointInSegment, within, Point.crossZ, Point.manhattanMagnitude, Point.slope,
      sq2, Point.ext_iff', List.range_succ]
  have hslice : sq2.slice ⟨0, 0⟩ ⟨-1, 1⟩ = .ok [sq2] := by
    unfold Polygon.slice
    rw [hI]
  simp only [turnStep, hprobe]
  rw [if_neg (by decide : ¬("BANANA" = "SAME"))]
  norm_num [Point.apply, rotateByComplex_01, hf0, hf0', hslice, mkLine,
    Point.manhattanMagnitude, Point.slope, Point.ext_iff']

theorem turnStep_unknown_token_as_colder_witness :
    ("BANANA" ≠ "SAME" ∧ "BANANA" ≠ "WARMER") ∧
      turnStep 2 2 ⟨sq2, ⟨0, 0⟩⟩ "BANANA" = turnStep 2 2 ⟨sq2, ⟨0, 0⟩⟩ "COLDER" :=
  ⟨⟨by decide, by decide⟩,
    turnStep_unknown_token_as_colder 2 2 ⟨sq2, ⟨0, 0⟩⟩ "BANANA" (by decide) (by decide)⟩

/-! Claim C10. -/

/-- C10: the reads `slice` performs while assembling the two sub-polygons are
not all in range.  For the 4-vertex board rectangle cut by the horizontal line
`y = 2` the two intersections sit on edges 1 and 3, so `itB + 1` is the
past-the-end iterator of the vertex vector, and `*(shapeB.end())` dereferences
one past the end of `shapeB` on every successful two-intersection slice: the
out-of-range branch of the `Option`-returning reads is reached. -/
theorem slice_out_of_range_reads :
    sq4.sliceOOB ⟨5, 2⟩ ⟨6, 2⟩ ∧
      sq4.slice ⟨5, 2⟩ ⟨6, 2⟩ =
        .ok [⟨[⟨4, 4⟩, ⟨0, 4⟩, ⟨0, 2⟩, ⟨4, 2⟩]⟩, ⟨[⟨0, 0⟩, ⟨4, 0⟩, ⟨4, 2⟩, ⟨0, 2⟩]⟩] := by
  have hI : sq4.intersectsFromLine ⟨5, 2⟩ ⟨6, 2⟩ = .ok [(⟨4, 2⟩, 1), (⟨0, 2⟩, 3)] := by
    set_option maxRecDepth 4000 in
    norm_num [Polygon.intersectsFromLine, interLoop, mkLine, Line.intersection,
      Line.pointInSegment, within, Point.crossZ, Point.manhattanMagnitude, Point.slope,
      sq4, Point.ext_iff', List.range_succ]
  constructor
  · unfold Polygon.sliceOOB
    rw [hI]
    simp [sq4, (by decide : (1 : ℕ) ⊓ 3 = 1), (by decide : (1 : ℕ) ⊔ 3 = 3)]
  · unfold Polygon.slice
    rw [hI]
    norm_num [sq4, oobNe, Point.ext_iff',
      (by decide : (1 : ℕ) ⊓ 3 = 1), (by decide : (1 : ℕ) ⊔ 3 = 3)]

/-! Claim C2: infrastructure. -/

theorem succ_mod_ne {n x : ℕ} (hn : 2 ≤ n) (hx : x < n) : (x + 1) % n ≠ x := by
  rcases Nat.lt_or_ge (x + 1) n with h | h
  · rw [Nat.mod_eq_of_lt h]
    omega
  · have hx1 : x + 1 = n := by omega
    rw [hx1, Nat.mod_self]
    omega

theorem succ_succ_mod_ne {n i : ℕ} (hn : 3 ≤ n) (hi : i < n) :
    ((i + 1) % n + 1) % n ≠ i := by
  rcases Nat.lt_or_ge (i + 1) n with h | h
  · rw [Nat.mod_eq_of_lt h]
    rcases Nat.lt_or_ge (i + 2) n with h2 | h2
    · rw [Nat.mod_eq_of_lt (by omega)]
      omega
    · rw [show i + 1 + 1 = n from by omega, Nat.mod_self]
      omega
  · have hx : i + 1 = n := by omega
    rw [hx, Nat.mod_self, Nat.mod_eq_of_lt (by omega)]
    omega

theorem succ_mod_inj {n i k : ℕ} (hi : i < n) (hk : k < n)
    (h : (i + 1) % n = (k + 1) % n) : i = k := by
  rcases Nat.lt_or_ge (i + 1) n with h1 | h1 <;> rcases Nat.lt_or_ge (k + 1) n with h2 | h2
  · rw [Nat.mod_eq_of_lt h1, Nat.mod_eq_of_lt h2] at h
    omega
  · rw [Nat.mod_eq_of_lt h1, show k + 1 = n from by omega, Nat.mod_self] at h
    omega
  · rw [show i + 1 = n from by omega, Nat.mod_self, Nat.mod_eq_of_lt h2] at h
    omega
  · omega

theorem ecross_combo (verts : List Point) (i : ℕ) (Q1 Q2 : Point) (lam mu : ℝ)
    (hlm : lam + mu = 1) :
    ecross verts i ⟨lam * Q1.x + mu * Q2.x, lam * Q1.y + mu * Q2.y⟩ =
      lam * ecross verts i Q1 + mu * ecross verts i Q2 := by
  have hmu : mu = 1 - lam := by linarith
  subst hmu
  unfold ecross Point.crossZ
  simp only [Point.sub_def]
  ring

theorem ecross_segPt_expand (verts : List Point) (i k : ℕ) (t : ℝ) :
    ecross verts i (segPt verts k t) =
      (1 - t) * ecross verts i (vtx verts k) +
        t * ecross verts i (vtx verts ((k + 1) % verts.length)) := by
  unfold ecross segPt edgeVec Point.crossZ
  simp only [Point.sub_def]
  ring

theorem ecross_segPt_self (verts : List Point) (i : ℕ) (t : ℝ) :
    ecross verts i (segPt verts i t) = 0 := by
  unfold ecross segPt edgeVec Point.crossZ
  simp only [Point.sub_def]
  ring

theorem ecross_vtx_nonneg (verts : List Point) (hconv : StrictlyConvex verts) :
    ∀ i < verts.length, ∀ k < verts.length, 0 ≤ ecross verts i (vtx verts k) := by
  intro i hi k hk
  by_cases h1 : k = i
  · subst h1
    have hz : ecross verts k (vtx verts k) = 0 := by
      unfold ecross Point.crossZ
      simp only [Point.sub_def]
      ring
    rw [hz]
  · by_cases h2 : k = (i + 1) % verts.length
    · subst h2
      have hz : ecross verts i (vtx verts ((i + 1) % verts.length)) = 0 := by
        unfold ecross edgeVec Point.crossZ
        simp only [Point.sub_def]
        ring
      rw [hz]
    · exact (hconv i hi k hk h1 h2).le

theorem within_affine_bounds {aa dd t : ℝ} (h : within (aa + dd * t) aa (aa + dd)) :
    dd = 0 ∨ (0 ≤ t ∧ t ≤ 1) := by
  unfold within at h
  split at h
  · rename_i hlt
    obtain ⟨h1, h2⟩ := h
    right
    constructor <;> nlinarith
  · rename_i hge
    obtain ⟨h1, h2⟩ := h
    rcases eq_or_lt_of_le (show (0 : ℝ) ≤ dd by nlinarith [not_lt.mp hge]) with he | hpos
    · exact Or.inl he.symm
    · right
      constructor <;> nlinarith

theorem mkLine_ok_fields {A B : Point} {side : Line} (h : mkLine A B = .ok side) :
    side.A = A ∧ side.B = B ∧ side.vec = B - A ∧ ¬(B - A = ⟨0, 0⟩) := by
  simp only [mkLine] at h
  split at h
  · exact absurd h (by simp)
  · rename_i hcond
    injection h with h'
    subst h'
    refine ⟨rfl, rfl, rfl, fun h0 => hcond ?_⟩
    rw [show B - A = ⟨0, 0⟩ from h0]
    simp [Point.manhattanMagnitude]

theorem intersection_some_spec {self other : Line} {P : Point}
    (h : self.intersection other = some P) :
    self.vec.crossZ other.vec ≠ 0 ∧
      P = self.A + self.vec *
        (other.vec.crossZ (self.A - other.A) / self.vec.crossZ other.vec) ∧
      other.vec.crossZ (P - other.A) = 0 := by
  simp only [Line.intersection] at h
  split at h
  · exact absurd h (by simp)
  · rename_i hden
    injection h with h'
    refine ⟨hden, h'.symm, ?_⟩
    subst h'
    unfold Point.crossZ at hden ⊢
    simp only [Point.add_def, Point.mul_def, Point.sub_def]
    field_simp
    ring

theorem collinear_param {d w : Point} (hd : d ≠ ⟨0, 0⟩) (h : d.crossZ w = 0) :
    ∃ s : ℝ, w = ⟨d.x * s, d.y * s⟩ := by
  unfold Point.crossZ at h
  by_cases hx : d.x = 0
  · have hy : d.y ≠ 0 := fun hy => hd ((Point.ext_iff' d ⟨0, 0⟩).mpr ⟨hx, hy⟩)
    refine ⟨w.y / d.y, (Point.ext_iff' _ _).mpr ⟨?_, ?_⟩⟩
    · rw [hx] at h ⊢
      simp only [zero_mul] at h ⊢
      rcases mul_eq_zero.mp (show d.y * w.x = 0 by linarith) with h' | h'
      · exact absurd h' hy
      · exact h'
    · field_simp
  · refine ⟨w.x / d.x, (Point.ext_iff' _ _).mpr ⟨?_, ?_⟩⟩
    · field_simp
    · field_simp
      linear_combination h

theorem between_param {Aq d Pa Pm Pc : Point} {sa sm sc : ℝ}
    (ha : Pa = ⟨Aq.x + d.x * sa, Aq.y + d.y * sa⟩)
    (hm : Pm = ⟨Aq.x + d.x * sm, Aq.y + d.y * sm⟩)
    (hc : Pc = ⟨Aq.x + d.x * sc, Aq.y + d.y * sc⟩)
    (h1 : sa < sm) (h2 : sm < sc) :
    ∃ lam mu : ℝ, 0 < lam ∧ 0 < mu ∧ lam + mu = 1 ∧
      Pm = ⟨lam * Pa.x + mu * Pc.x, lam * Pa.y + mu * Pc.y⟩ := by
  have hden : 0 < sc - sa := by linarith
  refine ⟨(sc - sm) / (sc - sa), (sm - sa) / (sc - sa),
    div_pos (by linarith) hden, div_pos (by linarith) hden, by field_simp, ?_⟩
  rw [ha, hm, hc, Point.ext_iff']
  constructor <;> (simp only; field_simp; ring)

theorem three_reals_middle {s1 s2 s3 : ℝ} (h12 : s1 ≠ s2) (h13 : s1 ≠ s3)
    (h23 : s2 ≠ s3) :
    (s1 < s2 ∧ s2 < s3) ∨ (s3 < s2 ∧ s2 < s1) ∨
      (s2 < s1 ∧ s1 < s3) ∨ (s3 < s1 ∧ s1 < s2) ∨
      (s1 < s3 ∧ s3 < s2) ∨ (s2 < s3 ∧ s3 < s1) := by
  rcases lt_or_gt_of_ne h12 with h12 | h12 <;>
    rcases lt_or_gt_of_ne h13 with h13 | h13 <;>
      rcases lt_or_gt_of_ne h23 with h23 | h23
  · exact Or.inl ⟨h12, h23⟩
  · exact Or.inr (Or.inr (Or.inr (Or.inr (Or.inl ⟨h13, h23⟩))))
  · exact absurd h23 (by intro h'; linarith)
  · exact Or.inr (Or.inr (Or.inr (Or.inl ⟨h13, h12⟩)))
  · exact Or.inr (Or.inr (Or.inl ⟨h12, h13⟩))
  · exact absurd h23 (by intro h'; linarith)
  · exact Or.inr (Or.inr (Or.inr (Or.inr (Or.inr ⟨h23, h13⟩))))
  · exact Or.inr (Or.inl ⟨h23, h12⟩)

theorem interLoop_ok_entries (verts : List Point) (lineCast : Line) (idxs : List ℕ)
    (out : List (Point × ℕ)) (h : interLoop verts lineCast idxs = .ok out) :
    ∀ e ∈ out, entryOK verts lineCast e.1 e.2 := by
  induction idxs generalizing out with
  | nil =>
    rw [interLoop] at h
    cases h
    simp
  | cons i rest ih =>
    rw [interLoop] at h
    split at h
    · exact absurd h (by simp)
    · rename_i side hmk
      split at h
      · exact ih out h
      · rename_i P hint
        split at h
        · exact ih out h
        · rename_i hPJ
          split at h
          · rename_i hPS
            split at h
            · exact absurd h (by simp)
            · rename_i l hrec
              simp only [Except.ok.injEq] at h
              subst h
              intro e he
              rcases List.mem_cons.mp he with rfl | he'
              · exact ⟨side, hmk, hint, hPJ, hPS⟩
              · exact ih l hrec e he'
          · exact ih out h

theorem interLoop_ok_edges (verts : List Point) (lineCast : Line) (idxs : List ℕ)
    (out : List (Point × ℕ)) (h : interLoop verts lineCast idxs = .ok out) :
    ∀ i ∈ idxs, ∃ side : Line,
      mkLine (vtx verts i) (vtx verts ((i + 1) % verts.length)) = .ok side := by
  induction idxs generalizing out with
  | nil =>
    intro i hi
    exact absurd hi (by simp)
  | cons i rest ih =>
    rw [interLoop] at h
    split at h
    · exact absurd h (by simp)
    · rename_i side hmk
      have hstep : ∀ i' ∈ rest, ∃ side : Line,
          mkLine (vtx verts i') (vtx verts ((i' + 1) % verts.length)) = .ok side := by
        split at h
        · exact ih out h
        · split at h
          · exact ih out h
          · split at h
            · split at h
              · exact absurd h (by simp)
              · rename_i l hrec
                exact ih l hrec
            · exact ih out h
      intro i' hi'
      rcases List.mem_cons.mp hi' with rfl | hmem
      · exact ⟨side, hmk⟩
      · exact hstep i' hmem

theorem entry_param {verts : List Point} {lineCast : Line} {P : Point} {i : ℕ}
    (he : entryOK verts lineCast P i) :
    edgeVec verts i ≠ ⟨0, 0⟩ ∧
      P ≠ vtx verts ((i + 1) % verts.length) ∧
      lineCast.vec.crossZ (P - lineCast.A) = 0 ∧
      ∃ t : ℝ, 0 ≤ t ∧ t ≤ 1 ∧ P = segPt verts i t := by
  obtain ⟨side, hmk, hint, hPJ, hPS⟩ := he
  obtain ⟨hA, hB, hvec, hnz⟩ := mkLine_ok_fields hmk
  obtain ⟨hden, hPform, honcast⟩ := intersection_some_spec hint
  have hvec' : side.vec = edgeVec verts i := hvec
  have hnz' : edgeVec verts i ≠ ⟨0, 0⟩ := hnz
  refine ⟨hnz', hPJ, honcast, ?_⟩
  set tv := lineCast.vec.crossZ (side.A - lineCast.A) / side.vec.crossZ lineCast.vec with htv
  have hPx : P = ⟨(vtx verts i).x + (edgeVec verts i).x * tv,
      (vtx verts i).y + (edgeVec verts i).y * tv⟩ := by
    rw [hPform, hA, hvec']
    simp [Point.add_def, Point.mul_def]
  unfold Line.pointInSegment at hPS
  obtain ⟨-, hwx, hwy⟩ := hPS
  have hBx : side.B.x = (vtx verts i).x + (edgeVec verts i).x := by
    rw [hB]
    unfold edgeVec
    simp only [Point.sub_def]
    ring
  have hBy : side.B.y = (vtx verts i).y + (edgeVec verts i).y := by
    rw [hB]
    unfold edgeVec
    simp only [Point.sub_def]
    ring
  have hwx' : within ((vtx verts i).x + (edgeVec verts i).x * tv)
      ((vtx verts i).x) ((vtx verts i).x + (edgeVec verts i).x) := by
    rw [hPx] at hwx
    dsimp only at hwx
    rw [hA, hBx] at hwx
    exact hwx
  have hwy' : within ((vtx verts i).y + (edgeVec verts i).y * tv)
      ((vtx verts i).y) ((vtx verts i).y + (edgeVec verts i).y) := by
    rw [hPx] at hwy
    dsimp only at hwy
    rw [hA, hBy] at hwy
    exact hwy
  rcases within_affine_bounds hwx' with hx0 | hbx
  · rcases within_affine_bounds hwy' with hy0 | hby
    · exact absurd ((Point.ext_iff' _ _).mpr ⟨hx0, hy0⟩) hnz'
    · exact ⟨tv, hby.1, hby.2, hPx⟩
  · exact ⟨tv, hbx.1, hbx.2, hPx⟩

theorem seg_on_line_endpoints {verts : List Point} (hn : 3 ≤ verts.length)
    (hconv : StrictlyConvex verts)
    {i k : ℕ} (hi : i < verts.length) (hk : k < verts.length) (hki : k ≠ i)
    {t : ℝ} (ht0 : 0 ≤ t) (ht1 : t ≤ 1) {Q : Point} (hQ : Q = segPt verts k t)
    (hzero : ecross verts i Q = 0) :
    Q = vtx verts i ∨ Q = vtx verts ((i + 1) % verts.length) := by
  have hkl : (k + 1) % verts.length < verts.length := Nat.mod_lt _ (by omega)
  have hcomb : (1 - t) * ecross verts i (vtx verts k) +
      t * ecross verts i (vtx verts ((k + 1) % verts.length)) = 0 := by
    rw [← ecross_segPt_expand, ← hQ]
    exact hzero
  have hk0 := ecross_vtx_nonneg verts hconv i hi k hk
  have hk1 := ecross_vtx_nonneg verts hconv i hi _ hkl
  rcases eq_or_lt_of_le ht0 with h0 | h0
  · have hQk : Q = vtx verts k := by
      rw [hQ, ← h0]
      unfold segPt
      simp [Point.ext_iff']
    have hck : ecross verts i (vtx verts k) = 0 := by
      rw [← hQk]
      exact hzero
    have hkj : k = (i + 1) % verts.length := by
      by_contra hne
      exact absurd hck (ne_of_gt (hconv i hi k hk hki hne))
    rw [hQk, hkj]
    exact Or.inr rfl
  rcases eq_or_lt_of_le ht1 with h1 | h1
  · have hQk : Q = vtx verts ((k + 1) % verts.length) := by
      rw [hQ, h1]
      unfold segPt edgeVec
      rw [Point.ext_iff']
      simp only [Point.sub_def]
      constructor <;> ring
    have hck1 : ecross verts i (vtx verts ((k + 1) % verts.length)) = 0 := by
      rw [← hQk]
      exact hzero
    have hj : (k + 1) % verts.length = i ∨
        (k + 1) % verts.length = (i + 1) % verts.length := by
      by_contra hne
      push_neg at hne
      exact absurd hck1 (ne_of_gt (hconv i hi _ hkl hne.1 hne.2))
    rcases hj with hj | hj
    · rw [hQk, hj]
      exact Or.inl rfl
    · rw [hQk, hj]
      exact Or.inr rfl
  · exfalso
    have hc1 : ecross verts i (vtx verts k) = 0 := by
      have hle : ecross verts i (vtx verts k) ≤ 0 := by
        nlinarith [mul_nonneg h0.le hk1]
      exact le_antisymm hle hk0
    have hc2 : ecross verts i (vtx verts ((k + 1) % verts.length)) = 0 := by
      have hle : ecross verts i (vtx verts ((k + 1) % verts.length)) ≤ 0 := by
        nlinarith [mul_nonneg (by linarith : (0 : ℝ) ≤ 1 - t) hk0]
      exact le_antisymm hle hk1
    have hkj : k = (i + 1) % verts.length := by
      by_contra hne
      exact absurd hc1 (ne_of_gt (hconv i hi k hk hki hne))
    have hj2 : (k + 1) % verts.length = i ∨
        (k + 1) % verts.length = (i + 1) % verts.length := by
      by_contra hne
      push_neg at hne
      exact absurd hc2 (ne_of_gt (hconv i hi _ hkl hne.1 hne.2))
    rcases hj2 with hj2 | hj2
    · rw [hkj] at hj2
      exact succ_succ_mod_ne hn hi hj2
    · exact hki (succ_mod_inj hk hi hj2)

theorem convex_vtx_ne {verts : List Point} (hconv : StrictlyConvex verts)
    (hedges : ∀ i < verts.length, edgeVec verts i ≠ ⟨0, 0⟩)
    {i k : ℕ} (hi : i < verts.length) (hk : k < verts.length) (hik : i ≠ k) :
    vtx verts i ≠ vtx verts k := by
  intro heq
  by_cases h2 : k = (i + 1) % verts.length
  · subst h2
    apply hedges i hi
    unfold edgeVec
    rw [← heq]
    simp [Point.ext_iff']
  · have hpos := hconv i hi k hk (fun h => hik h.symm) h2
    rw [← heq] at hpos
    have hz : ecross verts i (vtx verts i) = 0 := by
      unfold ecross Point.crossZ
      simp only [Point.sub_def]
      ring
    rw [hz] at hpos
    exact lt_irrefl 0 hpos

theorem entry_pts_ne {verts : List Point} {lineCast : Line}
    (hn : 3 ≤ verts.length) (hconv : StrictlyConvex verts)
    (hedges : ∀ i < verts.length, edgeVec verts i ≠ ⟨0, 0⟩)
    {P Q : Point} {i1 i2 : ℕ} (hi1 : i1 < verts.length) (hi2 : i2 < verts.length)
    (h12 : i1 ≠ i2)
    (he1 : entryOK verts lineCast P i1) (he2 : entryOK verts lineCast Q i2) :
    P ≠ Q := by
  intro heq
  subst heq
  obtain ⟨-, hPJ1, -, t1, ht10, ht11, hP1⟩ := entry_param he1
  obtain ⟨-, hPJ2, -, t2, ht20, ht21, hP2⟩ := entry_param he2
  have hz1 : ecross verts i1 P = 0 := by
    rw [hP1]
    exact ecross_segPt_self _ _ _
  have hz2 : ecross verts i2 P = 0 := by
    rw [hP2]
    exact ecross_segPt_self _ _ _
  have hep1 := seg_on_line_endpoints hn hconv hi1 hi2 (fun h => h12 h.symm) ht20 ht21 hP2 hz1
  have hep2 := seg_on_line_endpoints hn hconv hi2 hi1 h12 ht10 ht11 hP1 hz2
  have hPv1 : P = vtx verts i1 := by
    rcases hep1 with h | h
    · exact h
    · exact absurd h hPJ1
  have hPv2 : P = vtx verts i2 := by
    rcases hep2 with h | h
    · exact h
    · exact absurd h hPJ2
  exact convex_vtx_ne hconv hedges hi1 hi2 h12 (hPv1 ▸ hPv2)

theorem convex_middle_contradiction {verts : List Point} {lineCast : Line}
    (hn : 3 ≤ verts.length) (hconv : StrictlyConvex verts)
    {Pa Pm Pc : Point} {ia im ic : ℕ}
    (hia : ia < verts.length) (him : im < verts.length) (hic : ic < verts.length)
    (hima : ia ≠ im) (himc : ic ≠ im)
    (hea : entryOK verts lineCast Pa ia) (hem : entryOK verts lineCast Pm im)
    (hec : entryOK verts lineCast Pc ic)
    (hac : Pa ≠ Pc)
    {lam mu : ℝ} (hl : 0 < lam) (hmu : 0 < mu) (hlm : lam + mu = 1)
    (hcomb : Pm = ⟨lam * Pa.x + mu * Pc.x, lam * Pa.y + mu * Pc.y⟩) : False := by
  obtain ⟨-, hPJa, -, ta, hta0, hta1, hPa⟩ := entry_param hea
  obtain ⟨-, -, -, tm, htm0, htm1, hPm⟩ := entry_param hem
  obtain ⟨-, hPJc, -, tc, htc0, htc1, hPc⟩ := entry_param hec
  have hja : (ia + 1) % verts.length < verts.length := Nat.mod_lt _ (by omega)
  have hjc : (ic + 1) % verts.length < verts.length := Nat.mod_lt _ (by omega)
  have hCa : 0 ≤ ecross verts im Pa := by
    rw [hPa, ecross_segPt_expand]
    have n1 := ecross_vtx_nonneg verts hconv im him ia hia
    have n2 := ecross_vtx_nonneg verts hconv im him _ hja
    nlinarith
  have hCc : 0 ≤ ecross verts im Pc := by
    rw [hPc, ecross_segPt_expand]
    have n1 := ecross_vtx_nonneg verts hconv im him ic hic
    have n2 := ecross_vtx_nonneg verts hconv im him _ hjc
    nlinarith
  have hCm : ecross verts im Pm = 0 := by
    rw [hPm]
    exact ecross_segPt_self _ _ _
  have hsum : lam * ecross verts im Pa + mu * ecross verts im Pc = 0 := by
    rw [← ecross_combo verts im Pa Pc lam mu hlm, ← hcomb]
    exact hCm
  have hzA : ecross verts im Pa = 0 := by
    have hle : ecross verts im Pa ≤ 0 := by
      nlinarith [mul_nonneg hmu.le hCc]
    exact le_antisymm hle hCa
  have hzC : ecross verts im Pc = 0 := by
    have hle : ecross verts im Pc ≤ 0 := by
      nlinarith [mul_nonneg hl.le hCa]
    exact le_antisymm hle hCc
  have hepA := seg_on_line_endpoints hn hconv him hia hima hta0 hta1 hPa hzA
  have hepC := seg_on_line_endpoints hn hconv him hic himc htc0 htc1 hPc hzC
  rcases hepA with hA1 | hA1 <;> rcases hepC with hC1 | hC1
  · exact hac (hA1.trans hC1.symm)
  · -- Pa = vtx im; its own entry then forces im to follow ia, hitting the filter
    have hz : ecross verts ia (vtx verts im) = 0 := by
      rw [← hA1, hPa]
      exact ecross_segPt_self _ _ _
    have him_j : im = (ia + 1) % verts.length := by
      by_cases h' : im = ia
      · exact absurd h'.symm hima
      · by_contra h''
        exact absurd hz (ne_of_gt (hconv ia hia im him h' h''))
    exact hPJa (hA1.trans (by rw [him_j]))
  · have hz : ecross verts ic (vtx verts im) = 0 := by
      rw [← hC1, hPc]
      exact ecross_segPt_self _ _ _
    have him_j : im = (ic + 1) % verts.length := by
      by_cases h' : im = ic
      · exact absurd h'.symm himc
      · by_contra h''
        exact absurd hz (ne_of_gt (hconv ic hic im him h' h''))
    exact hPJc (hC1.trans (by rw [him_j]))
  · exact hac (hA1.trans hC1.symm)

theorem within_of_param {aa dd t : ℝ} (h0 : 0 ≤ t) (h1 : t ≤ 1) :
    within (aa + dd * t) aa (aa + dd) := by
  unfold within
  split
  · rename_i hlt
    exact ⟨by nlinarith, by nlinarith⟩
  · rename_i hge
    have hdd : 0 ≤ dd := by nlinarith [not_lt.mp hge]
    exact ⟨by nlinarith, by nlinarith⟩

theorem entry_onSeg {verts : List Point} {lineCast : Line} {P : Point} {i : ℕ}
    (he : entryOK verts lineCast P i) :
    onSeg (vtx verts i) (vtx verts ((i + 1) % verts.length)) P := by
  obtain ⟨-, -, -, t, h0, h1, hP⟩ := entry_param he
  have hBx : (vtx verts ((i + 1) % verts.length)).x =
      (vtx verts i).x + (edgeVec verts i).x := by
    unfold edgeVec
    simp only [Point.sub_def]
    ring
  have hBy : (vtx verts ((i + 1) % verts.length)).y =
      (vtx verts i).y + (edgeVec verts i).y := by
    unfold edgeVec
    simp only [Point.sub_def]
    ring
  refine ⟨?_, ?_, ?_⟩
  · rw [hP]
    unfold segPt edgeVec Point.crossZ
    simp only [Point.sub_def]
    ring
  · rw [hP, hBx]
    exact within_of_param h0 h1
  · rw [hP, hBy]
    exact within_of_param h0 h1

end Knight
